import Mathlib

/-!
A shallow embedding of the go-watcher program (`main.go`): the record
chunker (`LoadDataTable`), the snapshot map it maintains, the diff engine
(`DetectChanges`) and the debounced change notifier (`handleChange`).

Strings are handled at the `List Char` level so that every definition is
executable by the kernel; the functions mirror the Go string primitives
(`strings.HasPrefix`, `strings.Fields`, `strings.Join`) restricted to the
ASCII whitespace the inputs use.
-/

/-- Go strings.HasPrefix at the character-list level. -/
def startsWithChars : List Char → List Char → Bool
  | [], _ => true
  | _ :: _, [] => false
  | p :: ps, c :: cs => p = c && startsWithChars ps cs

/-- The boundary rule of `LoadDataTable`:
`strings.HasPrefix(line, "Destination:")`. -/
def isMarker (line : String) : Bool :=
  startsWithChars "Destination:".data line.data

/-- Split a character list at whitespace characters, keeping (possibly
empty) runs between separators, as `strings.FieldsFunc` would before
dropping empties. -/
def splitWS : List Char → List (List Char)
  | [] => [[]]
  | c :: cs =>
    if c.isWhitespace then [] :: splitWS cs
    else
      match splitWS cs with
      | g :: gs => (c :: g) :: gs
      | [] => [[c]]

/-- Go strings.Fields: the maximal runs of non-whitespace characters. -/
def fields (line : String) : List String :=
  ((splitWS line.data).filter (fun w => !w.isEmpty)).map (fun w => ⟨w⟩)

/-- Split a character list at newline characters. -/
def splitLinesChar : List Char → List (List Char)
  | [] => [[]]
  | c :: cs =>
    if c = '\n' then [] :: splitLinesChar cs
    else
      match splitLinesChar cs with
      | g :: gs => (c :: g) :: gs
      | [] => [[c]]

/-- The raw newline-split of a text: the exact inverse of joining lines
with a single newline, used to read a record's constituent lines back out
of its `data` field.  This is not the scanner: reading a text through
bufio.Scanner additionally strips carriage returns, see `scanLines`. -/
def splitLines (s : String) : List String :=
  (splitLinesChar s.data).map (fun w => ⟨w⟩)

/-- Go strings.Join with a newline separator: newline-separated
concatenation with no trailing newline. -/
def joinLines : List String → String
  | [] => ""
  | [l] => l
  | l :: ls => l ++ "\n" ++ joinLines ls

/-- The dropCR step of bufio.ScanLines: remove one trailing carriage
return, if present. -/
def dropCR : List Char → List Char
  | [] => []
  | [c] => if c = '\r' then [] else [c]
  | c :: cs => c :: dropCR cs

/-- Turn the newline-separated segments of a text into scanner tokens:
every segment before a newline is a token with one trailing carriage
return dropped, and the run after the last newline yields a final token
(also CR-stripped) only when it is nonempty. -/
def scanLinesAux : List (List Char) → List (List Char)
  | [] => []
  | [last] => if last.isEmpty then [] else [dropCR last]
  | seg :: rest => dropCR seg :: scanLinesAux rest

/-- The lines bufio.Scanner (with the default ScanLines split function)
yields for a text: split at newlines, drop one trailing carriage return
per line, and drop a final empty remnant. -/
def scanLines (s : String) : List String :=
  (scanLinesAux (splitLinesChar s.data)).map (fun w => ⟨w⟩)

/-- The `Chunk` struct of `main.go`: one route record.  Line numbers are
1-based and inclusive; `data` is the raw record text (lines joined by a
single newline); `hash` is the content digest of `data`. -/
structure Chunk where
  startLine : Nat
  endLine : Nat
  hash : String
  data : String
  destination : String
deriving DecidableEq, Repr

/-- The in-progress record of the scan loop: the fields of `currentChunk`
that are set before the chunk is closed. -/
structure OpenChunk where
  startLine : Nat
  destination : String
deriving DecidableEq, Repr

section

/- The content digest.  `main.go` uses `hashChunk = hex(sha256(data))`, an
external library primitive; the development is parameterised by it, so every
theorem holds for the real digest function. -/
variable (hashChunk : String → String)

/-- Close the current chunk: compute its raw data, digest and end line,
as the two `Save ... chunk` blocks of `LoadDataTable` do. -/
def closeChunk (oc : OpenChunk) (chunkLines : List String) (endLine : Nat) : Chunk :=
  let chunkData := joinLines chunkLines
  { startLine := oc.startLine
    endLine := endLine
    hash := hashChunk chunkData
    data := chunkData
    destination := oc.destination }

/-- Key extraction from a marker line at 1-based line number `lineNum`:
the second whitespace-delimited token, else the synthetic
`unknown_<lineNum>` key. -/
def destinationOf (line : String) (lineNum : Nat) : String :=
  match fields line with
  | _ :: dest :: _ => dest
  | _ => "unknown_" ++ toString lineNum

/-- The scan loop of `LoadDataTable`, as a recursion over the remaining
input lines carrying the loop state (`currentChunk`, `chunkLines`,
`lineNum`).  It returns the closed chunks in the order the Go loop inserts
them into `rt.Chunks`; the map itself is rebuilt from this ordered
sequence by `loadMapFrom`. -/
def scanChunks : List String → Option OpenChunk → List String → Nat → List Chunk
  | [], current, chunkLines, lineNum =>
    match current with
    | some oc => if chunkLines.isEmpty then [] else [closeChunk hashChunk oc chunkLines lineNum]
    | none => []
  | line :: rest, current, chunkLines, lineNum =>
    let n := lineNum + 1
    if isMarker line then
      (match current with
        | some oc => if chunkLines.isEmpty then [] else [closeChunk hashChunk oc chunkLines (n - 1)]
        | none => []) ++
      scanChunks rest (some ⟨n, destinationOf line n⟩) [line] n
    else
      match current with
      | some oc => scanChunks rest (some oc) (chunkLines ++ [line]) n
      | none => scanChunks rest none chunkLines n

/-- The ordered record sequence one full parse of `input` produces. -/
def chunkList (input : List String) : List Chunk :=
  scanChunks hashChunk input none [] 0

end

/-- The chunk map of a DataTable (field `rt.Chunks`), keyed by
destination.  Insertion order is kept so
the model is executable; Go map semantics are captured by `insertChunk`
(overwrite the existing key) and `lookupChunk`. -/
abbrev ChunkMap := List (String × Chunk)

/-- Go map assignment `m[k] = c`: replace the entry for `k` or append. -/
def insertChunk (m : ChunkMap) (k : String) (c : Chunk) : ChunkMap :=
  match m with
  | [] => [(k, c)]
  | (k', c') :: rest => if k' = k then (k, c) :: rest else (k', c') :: insertChunk rest k c

/-- Go map read `m[k]`. -/
def lookupChunk (m : ChunkMap) (k : String) : Option Chunk :=
  match m with
  | [] => none
  | (k', c) :: rest => if k' = k then some c else lookupChunk rest k

/-- Insert a sequence of closed chunks into a map, keyed by destination,
in order — exactly the `rt.Chunks[currentChunk.Destination] = currentChunk`
assignments the scan loop performs. -/
def loadMapFrom (m : ChunkMap) (cs : List Chunk) : ChunkMap :=
  cs.foldl (fun acc c => insertChunk acc c.destination c) m

/-- The observable behaviour of reading the source file through
`bufio.Scanner`: either the open fails, or the scanner yields a list of
lines and then `scanner.Err()` reports an optional read error. -/
inductive ScanSource where
  | openError (msg : String)
  | lines (ls : List String) (readErr : Option String)
deriving DecidableEq, Repr

section

variable (hashChunk : String → String)

/-- The method DataTable.LoadDataTable: parse the source and insert every closed
chunk into the existing map `m`; the result is the new map together with
the returned error, if any.  Note that the Go method inserts chunks into
`rt.Chunks` as it scans and only checks `scanner.Err()` afterwards, so on
a mid-stream read error the map still receives every chunk closed before
(and at) the failure point. -/
def loadDataTable (m : ChunkMap) (src : ScanSource) : ChunkMap × Option String :=
  match src with
  | .openError e => (m, some ("failed to open file: " ++ e))
  | .lines ls readErr =>
    let m' := loadMapFrom m (chunkList hashChunk ls)
    match readErr with
    | some e => (m', some ("error reading file: " ++ e))
    | none => (m', none)

/-- One complete snapshot of a source text: what `LoadDataTable` builds in
a freshly created (empty) `DataTable`, as `DetectChanges` does via
`tempRT`. -/
def parseMap (ls : List String) : ChunkMap :=
  loadMapFrom [] (chunkList hashChunk ls)

end

/-- The two comparison passes of `DetectChanges`: deleted-or-modified keys
from the old snapshot, then added keys from the new one, in iteration
order. -/
def diffChunks (oldChunks newChunks : ChunkMap) : List String :=
  (oldChunks.filterMap fun p =>
    match lookupChunk newChunks p.1 with
    | none => some p.1
    | some newChunk => if newChunk.hash = p.2.hash then none else some p.1) ++
  (newChunks.filterMap fun p =>
    if (lookupChunk oldChunks p.1).isSome then none else some p.1)

section

variable (hashChunk : String → String)

/-- The method DataTable.DetectChanges: copy the current map, reload the source
into a fresh table, and on success compare and swap; on failure return the
error with the current map untouched. -/
def detectChanges (rt : ChunkMap) (src : ScanSource) :
    ChunkMap × Except String (List String) :=
  let oldChunks := rt
  match loadDataTable hashChunk [] src with
  | (_, some e) => (rt, .error ("failed to reload routing table: " ++ e))
  | (tempChunks, none) => (tempChunks, .ok (diffChunks oldChunks tempChunks))

end

/-- Whether `DetectChanges` should report key `k` when the snapshot moved
from `oldChunks` to `newChunks`: present on exactly one side, or present
on both with differing digests. -/
def changedCond (oldChunks newChunks : ChunkMap) (k : String) : Bool :=
  match lookupChunk oldChunks k, lookupChunk newChunks k with
  | none, none => false
  | some _, none => true
  | none, some _ => true
  | some oc, some nc => !(nc.hash = oc.hash)

/-- The last chunk in `cs` whose destination is `k`, if any. -/
def lastChunkWith (cs : List Chunk) (k : String) : Option Chunk :=
  match cs with
  | [] => none
  | c :: rest =>
    match lastChunkWith rest k with
    | some c' => some c'
    | none => if c.destination = k then some c else none

/-- The marker line of a chunk: the first line of its raw data. -/
def markerLine (c : Chunk) : String :=
  (splitLines c.data).headD ""

/-- The debounced notifier of `FileWatcher.handleChange`, as a discrete
event system.  `signals` holds the arrival times of the relevant
filesystem signals in order; the state is the deadline of the single
pending `time.AfterFunc` timer, if one is armed.  A signal at time `t`
first lets a timer whose deadline has been reached fire (one callback
invocation, recorded in the result), then stops any still-pending timer
and arms a fresh one for `t + interval`; when the signal stream ends a
pending timer fires at its deadline. -/
def debounceFires (interval : Nat) : List Nat → Option Nat → List Nat
  | [], pending =>
    match pending with
    | some d => [d]
    | none => []
  | t :: ts, pending =>
    match pending with
    | some d =>
      if d ≤ t then d :: debounceFires interval ts (some (t + interval))
      else debounceFires interval ts (some (t + interval))
    | none => debounceFires interval ts (some (t + interval))

/-- A collision-free stand-in digest used to run the model on concrete
inputs; every theorem is parameterised over the digest function itself. -/
def sampleHash (s : String) : String := s

/-- A well-formed record group of lines: nonempty, opened by a marker
line, with no further marker line inside. -/
def GoodGroup (g : List String) : Prop :=
  g ≠ [] ∧ isMarker (g.headD "") = true ∧ ∀ l ∈ g.tail, isMarker l = false

/-- Decompose an input into the preamble lines before the first marker and
the record groups each opened by a marker line. -/
def groupSplit : List String → List String × List (List String)
  | [] => ([], [])
  | l :: ls =>
    if isMarker l then ([], (l :: (groupSplit ls).1) :: (groupSplit ls).2)
    else (l :: (groupSplit ls).1, (groupSplit ls).2)

/-- The chunks a parse produces from a sequence of record groups when the
line preceding the first group is line number `n`. -/
def chunksOfGroups (hashChunk : String → String) :
    List (List String) → Nat → List Chunk
  | [], _ => []
  | g :: gs, n =>
    closeChunk hashChunk ⟨n + 1, destinationOf (g.headD "") (n + 1)⟩ g (n + g.length) ::
    chunksOfGroups hashChunk gs (n + g.length)

theorem lookupChunk_insertChunk_self (m : ChunkMap) (k : String) (c : Chunk) :
    lookupChunk (insertChunk m k c) k = some c := by
  induction m with
  | nil => simp [insertChunk, lookupChunk]
  | cons p rest ih =>
    obtain ⟨k', c'⟩ := p
    by_cases h : k' = k
    · simp [insertChunk, lookupChunk, h]
    · simp [insertChunk, lookupChunk, h, ih]

theorem lookupChunk_insertChunk_ne (m : ChunkMap) {k k' : String} (c : Chunk)
    (h : k ≠ k') : lookupChunk (insertChunk m k c) k' = lookupChunk m k' := by
  induction m with
  | nil => simp [insertChunk, lookupChunk, h]
  | cons p rest ih =>
    obtain ⟨k₀, c₀⟩ := p
    by_cases h₀ : k₀ = k
    · subst h₀
      simp [insertChunk, lookupChunk, h, Ne.symm h]
    · by_cases h₁ : k₀ = k'
      · simp [insertChunk, lookupChunk, h₀, h₁, Ne.symm h]
      · simp [insertChunk, lookupChunk, h₀, h₁, ih]

theorem map_fst_insertChunk (m : ChunkMap) (k : String) (c : Chunk) :
    (insertChunk m k c).map Prod.fst =
      if k ∈ m.map Prod.fst then m.map Prod.fst else m.map Prod.fst ++ [k] := by
  induction m with
  | nil => simp [insertChunk]
  | cons p rest ih =>
    obtain ⟨k₀, c₀⟩ := p
    by_cases h₀ : k₀ = k
    · simp [insertChunk, h₀]
    · by_cases hmem : k ∈ rest.map Prod.fst
      · simp [insertChunk, h₀, ih, hmem, Ne.symm h₀]
      · simp [insertChunk, h₀, ih, hmem, Ne.symm h₀]

theorem nodup_insertChunk (m : ChunkMap) (k : String) (c : Chunk)
    (h : (m.map Prod.fst).Nodup) : ((insertChunk m k c).map Prod.fst).Nodup := by
  rw [map_fst_insertChunk]
  split
  · exact h
  · next hk =>
    simp [List.nodup_append, h, hk]

theorem lookupChunk_loadMapFrom (cs : List Chunk) (m : ChunkMap) (k : String) :
    lookupChunk (loadMapFrom m cs) k =
      match lastChunkWith cs k with
      | some c => some c
      | none => lookupChunk m k := by
  induction cs generalizing m with
  | nil => simp [loadMapFrom, lastChunkWith]
  | cons c cs ih =>
    show lookupChunk (loadMapFrom (insertChunk m c.destination c) cs) k = _
    rw [ih]
    cases hl : lastChunkWith cs k with
    | some c' => simp [lastChunkWith, hl]
    | none =>
      simp only [lastChunkWith, hl]
      by_cases hd : c.destination = k
      · subst hd
        simp [lookupChunk_insertChunk_self]
      · simp [hd, lookupChunk_insertChunk_ne _ _ hd]

theorem nodup_loadMapFrom (cs : List Chunk) (m : ChunkMap)
    (h : (m.map Prod.fst).Nodup) : ((loadMapFrom m cs).map Prod.fst).Nodup := by
  induction cs generalizing m with
  | nil => exact h
  | cons c cs ih => exact ih _ (nodup_insertChunk _ _ _ h)

theorem lookupChunk_eq_none (m : ChunkMap) (k : String) :
    lookupChunk m k = none ↔ k ∉ m.map Prod.fst := by
  induction m with
  | nil => simp [lookupChunk]
  | cons p rest ih =>
    obtain ⟨k₀, c₀⟩ := p
    by_cases h₀ : k₀ = k
    · simp [lookupChunk, h₀]
    · simp [lookupChunk, h₀, ih, Ne.symm h₀]

theorem lookupChunk_isSome_of_mem {m : ChunkMap} {p : String × Chunk}
    (h : p ∈ m) : (lookupChunk m p.1).isSome = true := by
  induction m with
  | nil => cases h
  | cons q rest ih =>
    obtain ⟨k₀, c₀⟩ := q
    by_cases h₀ : k₀ = p.1
    · simp [lookupChunk, h₀]
    · rcases List.mem_cons.mp h with h₁ | h₁
      · rw [h₁] at h₀
        simp at h₀
      · simp [lookupChunk, h₀, ih h₁]

theorem lookupChunk_of_mem_nodup {m : ChunkMap} (hnd : (m.map Prod.fst).Nodup)
    {k : String} {c : Chunk} (h : (k, c) ∈ m) : lookupChunk m k = some c := by
  induction m with
  | nil => cases h
  | cons q rest ih =>
    obtain ⟨k₀, c₀⟩ := q
    simp only [List.map_cons, List.nodup_cons] at hnd
    rcases List.mem_cons.mp h with h₁ | h₁
    · injection h₁ with hk hc
      subst hk
      subst hc
      simp [lookupChunk]
    · by_cases h₀ : k₀ = k
      · subst h₀
        exact absurd (List.mem_map_of_mem Prod.fst h₁) hnd.1
      · simpa [lookupChunk, h₀] using ih hnd.2 h₁

theorem lastChunkWith_eq_none {cs : List Chunk} {k : String} :
    lastChunkWith cs k = none ↔ k ∉ cs.map Chunk.destination := by
  induction cs with
  | nil => simp [lastChunkWith]
  | cons c cs ih =>
    cases hl : lastChunkWith cs k with
    | some c' =>
      have hmem : k ∈ List.map Chunk.destination cs := by
        by_contra hmm
        simp [ih.mpr hmm] at hl
      simp [lastChunkWith, hl, hmem]
    | none =>
      by_cases hd : c.destination = k
      · simp [lastChunkWith, hl, hd]
      · simp [lastChunkWith, hl, hd, ih.mp hl, Ne.symm hd]

theorem count_filterMap_eq_zero (l : ChunkMap) (f : String × Chunk → Option String)
    (hf : ∀ p, f p = none ∨ f p = some p.1) (k : String)
    (hk : k ∉ l.map Prod.fst) : (l.filterMap f).count k = 0 := by
  induction l with
  | nil => simp
  | cons p rest ih =>
    simp only [List.map_cons, List.mem_cons, not_or] at hk
    rcases hf p with h | h
    · simp [List.filterMap_cons, h, ih hk.2]
    · simp [List.filterMap_cons, h, List.count_cons, ih hk.2, beq_iff_eq, Ne.symm hk.1]

theorem count_diff_deleted_or_modified (oldChunks newChunks : ChunkMap)
    (hnd : (oldChunks.map Prod.fst).Nodup) (k : String) :
    ((oldChunks.filterMap fun p =>
      match lookupChunk newChunks p.1 with
      | none => some p.1
      | some newChunk => if newChunk.hash = p.2.hash then none else some p.1).count k)
    = match lookupChunk oldChunks k, lookupChunk newChunks k with
      | some _, none => 1
      | some oc, some nc => if nc.hash = oc.hash then 0 else 1
      | none, _ => 0 := by
  have hf : ∀ p : String × Chunk,
      (match lookupChunk newChunks p.1 with
        | none => some p.1
        | some newChunk => if newChunk.hash = p.2.hash then none else some p.1) = none ∨
      (match lookupChunk newChunks p.1 with
        | none => some p.1
        | some newChunk => if newChunk.hash = p.2.hash then none else some p.1) = some p.1 := by
    intro p
    cases h : lookupChunk newChunks p.1 with
    | none => exact Or.inr (by simp)
    | some nc =>
      by_cases hh : nc.hash = p.2.hash
      · exact Or.inl (by simp [hh])
      · exact Or.inr (by simp [hh])
  induction oldChunks with
  | nil => simp [lookupChunk]
  | cons p rest ih =>
    obtain ⟨k₀, c₀⟩ := p
    simp only [List.map_cons, List.nodup_cons] at hnd
    by_cases h₀ : k₀ = k
    · subst h₀
      have htail : (rest.filterMap fun p =>
          match lookupChunk newChunks p.1 with
          | none => some p.1
          | some newChunk => if newChunk.hash = p.2.hash then none else some p.1).count k₀ = 0 :=
        count_filterMap_eq_zero rest _ hf k₀ hnd.1
      cases hn : lookupChunk newChunks k₀ with
      | none => simp [List.filterMap_cons, hn, List.count_cons, htail, lookupChunk]
      | some nc =>
        by_cases hh : nc.hash = c₀.hash
        · simp [List.filterMap_cons, hn, hh, htail, lookupChunk]
        · simp [List.filterMap_cons, hn, hh, List.count_cons, htail, lookupChunk]
    · have hstep := ih hnd.2
      rcases hf (k₀, c₀) with h | h
      · simp [List.filterMap_cons, h, hstep, lookupChunk, h₀]
      · simp [List.filterMap_cons, h, List.count_cons, hstep, lookupChunk, h₀, beq_iff_eq]

theorem count_diff_added (oldChunks newChunks : ChunkMap)
    (hnd : (newChunks.map Prod.fst).Nodup) (k : String) :
    ((newChunks.filterMap fun p =>
      if (lookupChunk oldChunks p.1).isSome then none else some p.1).count k)
    = match lookupChunk oldChunks k, lookupChunk newChunks k with
      | none, some _ => 1
      | _, _ => 0 := by
  have hf : ∀ p : String × Chunk,
      (if (lookupChunk oldChunks p.1).isSome then none else some p.1) = none ∨
      (if (lookupChunk oldChunks p.1).isSome then none else some p.1) = some p.1 := by
    intro p
    by_cases h : (lookupChunk oldChunks p.1).isSome
    · exact Or.inl (by simp [h])
    · exact Or.inr (by simp [h])
  induction newChunks with
  | nil => simp [lookupChunk]
  | cons p rest ih =>
    obtain ⟨k₀, c₀⟩ := p
    simp only [List.map_cons, List.nodup_cons] at hnd
    by_cases h₀ : k₀ = k
    · subst h₀
      have htail : (rest.filterMap fun p =>
          if (lookupChunk oldChunks p.1).isSome then none else some p.1).count k₀ = 0 :=
        count_filterMap_eq_zero rest _ hf k₀ hnd.1
      cases ho : lookupChunk oldChunks k₀ with
      | none => simp [List.filterMap_cons, ho, List.count_cons, htail, lookupChunk]
      | some oc => simp [List.filterMap_cons, ho, htail, lookupChunk]
    · have hstep := ih hnd.2
      cases ho : lookupChunk oldChunks k₀ with
      | none =>
        simp [List.filterMap_cons, ho, List.count_cons, hstep, lookupChunk, h₀, beq_iff_eq]
      | some oc => simp [List.filterMap_cons, ho, hstep, lookupChunk, h₀]

theorem diffChunks_count (oldChunks newChunks : ChunkMap)
    (hold : (oldChunks.map Prod.fst).Nodup) (hnew : (newChunks.map Prod.fst).Nodup)
    (k : String) :
    (diffChunks oldChunks newChunks).count k =
      if changedCond oldChunks newChunks k then 1 else 0 := by
  rw [diffChunks, List.count_append,
    count_diff_deleted_or_modified oldChunks newChunks hold k,
    count_diff_added oldChunks newChunks hnew k, changedCond]
  cases ho : lookupChunk oldChunks k <;> cases hn : lookupChunk newChunks k
  · simp
  · simp
  · simp
  · next oc nc =>
    by_cases hh : nc.hash = oc.hash <;> simp [hh]

theorem diffChunks_eq_nil (oldChunks newChunks : ChunkMap)
    (hold : (oldChunks.map Prod.fst).Nodup)
    (hsame : ∀ k, lookupChunk oldChunks k = lookupChunk newChunks k) :
    diffChunks oldChunks newChunks = [] := by
  rw [diffChunks, List.append_eq_nil]
  constructor
  · rw [List.filterMap_eq_nil_iff]
    intro p hp
    have h₁ : lookupChunk oldChunks p.1 = some p.2 := lookupChunk_of_mem_nodup hold hp
    rw [← hsame p.1, h₁]
    simp
  · rw [List.filterMap_eq_nil_iff]
    intro p hp
    have h₁ : (lookupChunk newChunks p.1).isSome = true := lookupChunk_isSome_of_mem hp
    rw [← hsame p.1] at h₁
    simp [h₁]

theorem scanChunks_nonmarkers (hashChunk : String → String) (body : List String)
    (hbody : ∀ l ∈ body, isMarker l = false) (rest : List String) (oc : OpenChunk)
    (acc : List String) (n : Nat) :
    scanChunks hashChunk (body ++ rest) (some oc) acc n =
      scanChunks hashChunk rest (some oc) (acc ++ body) (n + body.length) := by
  induction body generalizing acc n with
  | nil => simp
  | cons l body ih =>
    have hl : isMarker l = false := hbody l (List.mem_cons_self l body)
    have hbody' : ∀ l' ∈ body, isMarker l' = false :=
      fun l' h => hbody l' (List.mem_cons_of_mem l h)
    show scanChunks hashChunk (l :: (body ++ rest)) (some oc) acc n = _
    rw [scanChunks]
    simp only [hl, Bool.false_eq_true, if_false]
    rw [ih hbody' (acc ++ [l]) (n + 1)]
    have e₁ : (acc ++ [l]) ++ body = acc ++ l :: body := by simp
    have e₂ : n + 1 + body.length = n + (l :: body).length := by
      simp [List.length_cons]
      omega
    rw [e₁, e₂]

theorem scanChunks_nonmarkers_none (hashChunk : String → String) (body : List String)
    (hbody : ∀ l ∈ body, isMarker l = false) (rest : List String)
    (acc : List String) (n : Nat) :
    scanChunks hashChunk (body ++ rest) none acc n =
      scanChunks hashChunk rest none acc (n + body.length) := by
  induction body generalizing n with
  | nil => simp
  | cons l body ih =>
    have hl : isMarker l = false := hbody l (List.mem_cons_self l body)
    have hbody' : ∀ l' ∈ body, isMarker l' = false :=
      fun l' h => hbody l' (List.mem_cons_of_mem l h)
    show scanChunks hashChunk (l :: (body ++ rest)) none acc n = _
    rw [scanChunks]
    simp only [hl, Bool.false_eq_true, if_false]
    rw [ih hbody' (n + 1)]
    have e₂ : n + 1 + body.length = n + (l :: body).length := by
      simp [List.length_cons]
      omega
    rw [e₂]

theorem scanChunks_flatten_open (hashChunk : String → String)
    (groups : List (List String)) (oc : OpenChunk) (acc : List String) (n : Nat)
    (hacc : acc ≠ []) (hg : ∀ g ∈ groups, GoodGroup g) :
    scanChunks hashChunk groups.flatten (some oc) acc n =
      closeChunk hashChunk oc acc n :: chunksOfGroups hashChunk groups n := by
  induction groups generalizing oc acc n with
  | nil =>
    simp [scanChunks, chunksOfGroups, hacc]
  | cons g gs ih =>
    obtain ⟨hne, hm, htail⟩ := hg g (List.mem_cons_self g gs)
    obtain ⟨m, body, rfl⟩ : ∃ m body, g = m :: body := by
      cases g with
      | nil => cases hne rfl
      | cons m body => exact ⟨m, body, rfl⟩
    have hm' : isMarker m = true := by simpa using hm
    have hbody : ∀ l ∈ body, isMarker l = false := by simpa using htail
    have hflat : ((m :: body) :: gs).flatten = m :: (body ++ gs.flatten) := by simp
    rw [hflat, scanChunks]
    simp only [hm', if_true]
    rw [scanChunks_nonmarkers hashChunk body hbody gs.flatten _ [m] (n + 1)]
    have hacc' : [m] ++ body ≠ [] := by simp
    rw [ih _ ([m] ++ body) (n + 1 + body.length) hacc'
      (fun g' h' => hg g' (List.mem_cons_of_mem _ h'))]
    have he : ¬ acc.isEmpty = true := by simpa [List.isEmpty_iff] using hacc
    simp only [he, if_false, chunksOfGroups]
    have e₁ : n + 1 - 1 = n := by omega
    have e₂ : n + 1 + body.length = n + (m :: body).length := by
      simp [List.length_cons]
      omega
    have e₃ : (m :: body).headD "" = m := rfl
    rw [e₁, e₂, e₃]
    simp

theorem scanChunks_flatten_none (hashChunk : String → String)
    (groups : List (List String)) (n : Nat) (hg : ∀ g ∈ groups, GoodGroup g) :
    scanChunks hashChunk groups.flatten none [] n = chunksOfGroups hashChunk groups n := by
  cases groups with
  | nil => simp [scanChunks, chunksOfGroups]
  | cons g gs =>
    obtain ⟨hne, hm, htail⟩ := hg g (List.mem_cons_self g gs)
    obtain ⟨m, body, rfl⟩ : ∃ m body, g = m :: body := by
      cases g with
      | nil => cases hne rfl
      | cons m body => exact ⟨m, body, rfl⟩
    have hm' : isMarker m = true := by simpa using hm
    have hbody : ∀ l ∈ body, isMarker l = false := by simpa using htail
    have hflat : ((m :: body) :: gs).flatten = m :: (body ++ gs.flatten) := by simp
    rw [hflat, scanChunks]
    simp only [hm', if_true]
    rw [scanChunks_nonmarkers hashChunk body hbody gs.flatten _ [m] (n + 1)]
    rw [scanChunks_flatten_open hashChunk gs _ ([m] ++ body) (n + 1 + body.length)
      (by simp) (fun g' h' => hg g' (List.mem_cons_of_mem _ h'))]
    simp only [chunksOfGroups]
    have e₂ : n + 1 + body.length = n + (m :: body).length := by
      simp [List.length_cons]
      omega
    have e₃ : (m :: body).headD "" = m := rfl
    rw [e₂, e₃]
    simp

theorem groupSplit_spec (input : List String) :
    (∀ l ∈ (groupSplit input).1, isMarker l = false) ∧
    (∀ g ∈ (groupSplit input).2, GoodGroup g) ∧
    (groupSplit input).1 ++ (groupSplit input).2.flatten = input := by
  induction input with
  | nil => simp [groupSplit]
  | cons l ls ih =>
    obtain ⟨h1, h2, h3⟩ := ih
    by_cases hm : isMarker l = true
    · refine ⟨by simp [groupSplit, hm], ?_, ?_⟩
      · intro g hg
        simp only [groupSplit, hm, if_true] at hg
        rcases List.mem_cons.mp hg with rfl | hg
        · exact ⟨by simp, by simpa using hm, by simpa using h1⟩
        · exact h2 g hg
      · simp only [groupSplit, hm, if_true, List.flatten_cons, List.nil_append]
        rw [List.cons_append, h3]
    · have hm' : isMarker l = false := by simpa using hm
      refine ⟨?_, ?_, ?_⟩
      · intro l' hl'
        simp only [groupSplit, hm', Bool.false_eq_true, if_false] at hl'
        rcases List.mem_cons.mp hl' with rfl | hl'
        · exact hm'
        · exact h1 l' hl'
      · intro g hg
        simp only [groupSplit, hm', Bool.false_eq_true, if_false] at hg
        exact h2 g hg
      · simp only [groupSplit, hm', Bool.false_eq_true, if_false]
        rw [List.cons_append, h3]

theorem chunkList_eq_chunksOfGroups (hashChunk : String → String) (input : List String) :
    chunkList hashChunk input =
      chunksOfGroups hashChunk (groupSplit input).2 (groupSplit input).1.length := by
  obtain ⟨h1, h2, h3⟩ := groupSplit_spec input
  have h₀ : chunkList hashChunk input =
      scanChunks hashChunk ((groupSplit input).1 ++ (groupSplit input).2.flatten) none [] 0 := by
    rw [h3]
    rfl
  rw [h₀, scanChunks_nonmarkers_none hashChunk _ h1 _ [] 0, Nat.zero_add]
  exact scanChunks_flatten_none hashChunk _ _ h2

theorem mem_chunksOfGroups {hashChunk : String → String} {groups : List (List String)}
    {n : Nat} {c : Chunk} (hc : c ∈ chunksOfGroups hashChunk groups n) :
    ∃ g m, g ∈ groups ∧
      c = closeChunk hashChunk ⟨m + 1, destinationOf (g.headD "") (m + 1)⟩ g (m + g.length) := by
  induction groups generalizing n with
  | nil => cases hc
  | cons g gs ih =>
    rcases List.mem_cons.mp hc with rfl | h
    · exact ⟨g, n, List.mem_cons_self g gs, rfl⟩
    · obtain ⟨g', m, hg', he⟩ := ih h
      exact ⟨g', m, List.mem_cons_of_mem _ hg', he⟩

theorem splitLinesChar_of_no_newline (xs : List Char) (h : '\n' ∉ xs) :
    splitLinesChar xs = [xs] := by
  induction xs with
  | nil => rfl
  | cons c cs ih =>
    simp only [List.mem_cons, not_or] at h
    have hc : ¬ c = '\n' := fun hh => h.1 hh.symm
    simp [splitLinesChar, hc, ih h.2]

theorem splitLinesChar_append (xs ys : List Char) (h : '\n' ∉ xs) :
    splitLinesChar (xs ++ '\n' :: ys) = xs :: splitLinesChar ys := by
  induction xs with
  | nil => simp [splitLinesChar]
  | cons c cs ih =>
    simp only [List.mem_cons, not_or] at h
    have hc : ¬ c = '\n' := fun hh => h.1 hh.symm
    simp only [List.cons_append, splitLinesChar, hc, if_false]
    rw [show cs.append ('\n' :: ys) = cs ++ '\n' :: ys from rfl, ih h.2]

theorem splitLines_joinLines (ls : List String) (hne : ls ≠ [])
    (h : ∀ l ∈ ls, '\n' ∉ l.data) : splitLines (joinLines ls) = ls := by
  induction ls with
  | nil => cases hne rfl
  | cons l ls ih =>
    cases ls with
    | nil =>
      have h₁ : '\n' ∉ l.data := h l (List.mem_cons_self l [])
      simp [joinLines, splitLines, splitLinesChar_of_no_newline l.data h₁]
    | cons l₂ ls₂ =>
      have h₁ : '\n' ∉ l.data := h l (List.mem_cons_self l (l₂ :: ls₂))
      have h₂ : ∀ l' ∈ l₂ :: ls₂, '\n' ∉ l'.data :=
        fun l' hl' => h l' (List.mem_cons_of_mem l hl')
      have hj : joinLines (l :: l₂ :: ls₂) = l ++ "\n" ++ joinLines (l₂ :: ls₂) := rfl
      have hdata : (l ++ "\n" ++ joinLines (l₂ :: ls₂)).data =
          l.data ++ '\n' :: (joinLines (l₂ :: ls₂)).data := by
        simp [String.data_append]
      rw [hj, splitLines, hdata, splitLinesChar_append _ _ h₁]
      have ihr := ih (by simp) h₂
      rw [splitLines] at ihr
      simp only [List.map_cons, ihr]

theorem map_data_map_mk (xs : List (List Char)) :
    (xs.map (fun w => (⟨w⟩ : String))).map String.data = xs := by
  induction xs with
  | nil => rfl
  | cons x t ih => simp [ih]

theorem map_mk_map_data (l : List String) :
    (l.map String.data).map (fun w => (⟨w⟩ : String)) = l := by
  induction l with
  | nil => rfl
  | cons x t ih => simp [ih]

theorem dropCR_of_no_cr (xs : List Char) (h : xs.getLast? ≠ some '\r') :
    dropCR xs = xs := by
  induction xs with
  | nil => rfl
  | cons c cs ih =>
    cases cs with
    | nil =>
      have hc : ¬ c = '\r' := by simpa using h
      simp [dropCR, hc]
    | cons c₂ cs₂ =>
      have h₂ : (c₂ :: cs₂).getLast? ≠ some '\r' := by
        simpa [List.getLast?_cons_cons] using h
      simp [dropCR, ih h₂]

theorem scanLinesAux_id (segs : List (List Char))
    (hcr : ∀ s ∈ segs, s.getLast? ≠ some '\r')
    (hlast : segs.getLast? ≠ some ([] : List Char)) : scanLinesAux segs = segs := by
  induction segs with
  | nil => rfl
  | cons seg rest ih =>
    cases rest with
    | nil =>
      have hne : ¬ seg.isEmpty = true := by
        intro hemp
        rw [List.isEmpty_iff] at hemp
        exact hlast (by simp [hemp])
      simp [scanLinesAux, hne, dropCR_of_no_cr seg (hcr seg (by simp))]
    | cons s₂ r₂ =>
      have h₂cr : ∀ s ∈ s₂ :: r₂, s.getLast? ≠ some '\r' :=
        fun s hs => hcr s (List.mem_cons_of_mem _ hs)
      have h₂last : (s₂ :: r₂).getLast? ≠ some ([] : List Char) := by
        simpa [List.getLast?_cons_cons] using hlast
      simp [scanLinesAux, dropCR_of_no_cr seg (hcr seg (by simp)), ih h₂cr h₂last]

theorem scanLines_joinLines (ls : List String) (hne : ls ≠ [])
    (hnl : ∀ l ∈ ls, '\n' ∉ l.data)
    (hcr : ∀ l ∈ ls, l.data.getLast? ≠ some '\r')
    (hlast : ls.getLast? ≠ some "") :
    scanLines (joinLines ls) = ls := by
  have hsl := splitLines_joinLines ls hne hnl
  rw [splitLines] at hsl
  have hsegs : splitLinesChar (joinLines ls).data = ls.map String.data := by
    have h := congrArg (List.map String.data) hsl
    rwa [map_data_map_mk] at h
  have hcr' : ∀ s ∈ ls.map String.data, s.getLast? ≠ some '\r' := by
    intro s hs
    obtain ⟨l, hl, rfl⟩ := List.mem_map.mp hs
    exact hcr l hl
  have hlast' : (ls.map String.data).getLast? ≠ some ([] : List Char) := by
    rw [List.getLast?_map]
    intro hbad
    cases hgl : ls.getLast? with
    | none => rw [hgl] at hbad; cases hbad
    | some l =>
      rw [hgl] at hbad
      have hl : l.data = [] := by
        injection hbad
      have : l = "" := congrArg String.mk hl
      exact hlast (hgl.trans (by rw [this]))
  rw [scanLines, hsegs, scanLinesAux_id (ls.map String.data) hcr' hlast',
    map_mk_map_data]

theorem string_append_assoc (a b c : String) : a ++ b ++ c = a ++ (b ++ c) := by
  cases a with
  | mk da =>
    cases b with
    | mk db =>
      cases c with
      | mk dc => exact congrArg String.mk (List.append_assoc da db dc)

theorem joinLines_append (a b : List String) (ha : a ≠ []) (hb : b ≠ []) :
    joinLines (a ++ b) = joinLines a ++ "\n" ++ joinLines b := by
  induction a with
  | nil => cases ha rfl
  | cons l a ih =>
    cases a with
    | nil =>
      cases b with
      | nil => cases hb rfl
      | cons b₁ bs => rfl
    | cons l₂ as =>
      have h₁ : joinLines ((l :: l₂ :: as) ++ b) =
          l ++ "\n" ++ joinLines ((l₂ :: as) ++ b) := rfl
      have h₂ : joinLines (l :: l₂ :: as) = l ++ "\n" ++ joinLines (l₂ :: as) := rfl
      rw [h₁, h₂, ih (by simp), ← string_append_assoc, ← string_append_assoc]

theorem joinLines_map_joinLines (gs : List (List String)) (h : ∀ g ∈ gs, g ≠ []) :
    joinLines (gs.map joinLines) = joinLines gs.flatten := by
  induction gs with
  | nil => rfl
  | cons g gs ih =>
    cases gs with
    | nil => simp [joinLines]
    | cons g₂ gs₂ =>
      have hg : g ≠ [] := h g (List.mem_cons_self g (g₂ :: gs₂))
      have hg₂ : g₂ ≠ [] := h g₂ (by simp)
      have hfl : (List.flatten (g₂ :: gs₂)) ≠ [] := by
        simp only [List.flatten_cons]
        cases g₂ with
        | nil => cases hg₂ rfl
        | cons x xs => simp
      calc joinLines ((g :: g₂ :: gs₂).map joinLines)
          = joinLines g ++ "\n" ++ joinLines ((g₂ :: gs₂).map joinLines) := rfl
        _ = joinLines g ++ "\n" ++ joinLines (g₂ :: gs₂).flatten := by
              rw [ih (fun g' h' => h g' (List.mem_cons_of_mem _ h'))]
        _ = joinLines (g ++ (g₂ :: gs₂).flatten) := (joinLines_append g _ hg hfl).symm
        _ = joinLines (g :: g₂ :: gs₂).flatten := by simp

theorem destinationOf_of_two_le {line : String} (h : 2 ≤ (fields line).length)
    (a b : Nat) : destinationOf line a = destinationOf line b := by
  cases hf : fields line with
  | nil => simp [hf] at h
  | cons x t =>
    cases t with
    | nil => simp [hf] at h
    | cons y t₂ => simp [destinationOf, hf]

theorem destinationOf_of_lt_two {line : String} (h : (fields line).length < 2)
    (a : Nat) : destinationOf line a = "unknown_" ++ toString a := by
  cases hf : fields line with
  | nil => simp [destinationOf, hf]
  | cons x t =>
    cases t with
    | nil => simp [destinationOf, hf]
    | cons y t₂ =>
      rw [hf] at h
      simp only [List.length_cons] at h
      exact absurd h (by omega)

theorem chunksOfGroups_map_data (hashChunk : String → String)
    (gs : List (List String)) (n : Nat) :
    (chunksOfGroups hashChunk gs n).map Chunk.data = gs.map joinLines := by
  induction gs generalizing n with
  | nil => rfl
  | cons g gs ih => simp [chunksOfGroups, closeChunk, ih]

theorem chunksOfGroups_maps (hashChunk : String → String) (gs : List (List String))
    (hwf : ∀ g ∈ gs, 2 ≤ (fields (g.headD "")).length) (n m : Nat) :
    ((chunksOfGroups hashChunk gs n).map Chunk.destination =
      (chunksOfGroups hashChunk gs m).map Chunk.destination) ∧
    ((chunksOfGroups hashChunk gs n).map Chunk.hash =
      (chunksOfGroups hashChunk gs m).map Chunk.hash) ∧
    ((chunksOfGroups hashChunk gs n).map (fun c => c.endLine - c.startLine) =
      (chunksOfGroups hashChunk gs m).map (fun c => c.endLine - c.startLine)) := by
  induction gs generalizing n m with
  | nil => simp [chunksOfGroups]
  | cons g gs ih =>
    have hg := hwf g (List.mem_cons_self g gs)
    obtain ⟨ihd, ihh, ihe⟩ :=
      ih (fun g' h' => hwf g' (List.mem_cons_of_mem _ h')) (n + g.length) (m + g.length)
    refine ⟨?_, ?_, ?_⟩
    · simp [chunksOfGroups, closeChunk, ihd]
      simpa using destinationOf_of_two_le hg (n + 1) (m + 1)
    · simp [chunksOfGroups, closeChunk, ihh]
    · simp only [chunksOfGroups, closeChunk, List.map_cons, ihe]
      congr 1
      omega

theorem debounceFires_chain (interval : Nat) (ts : List Nat) (t₀ : Nat)
    (hch : List.Chain' (fun a b => a ≤ b ∧ b - a < interval) (t₀ :: ts)) :
    debounceFires interval ts (some (t₀ + interval)) =
      [(t₀ :: ts).getLast (by simp) + interval] := by
  induction ts generalizing t₀ with
  | nil => simp [debounceFires]
  | cons t ts ih =>
    have h₁ : t₀ ≤ t ∧ t - t₀ < interval := (List.chain'_cons.mp hch).1
    have h₂ : List.Chain' (fun a b => a ≤ b ∧ b - a < interval) (t :: ts) :=
      (List.chain'_cons.mp hch).2
    have hlt : ¬ t₀ + interval ≤ t := by omega
    rw [debounceFires]
    simp only [hlt, if_false]
    rw [ih t h₂]
    simp [List.getLast_cons]

/-- Claim C1, counterexample.  The claim states that whenever reading the
source fails — including a read error mid-stream — LoadDataTable returns
an error and leaves the store's chunk map exactly as it was, discarding
all records parsed so far in that call.  On the code this is false: with
an empty store and a scan that yields the line "Destination: A" and then
fails, LoadDataTable returns an error, yet the chunk parsed before the
failure has already been inserted into the map, which is no longer
empty. -/
theorem claim1_counterexample :
    ((loadDataTable sampleHash [] (.lines ["Destination: A"] (some "io"))).2.isSome = true) ∧
    (loadDataTable sampleHash [] (.lines ["Destination: A"] (some "io"))).1 ≠ [] := by
  decide

/-- Claim C1, amended.  If opening the source fails, LoadDataTable returns
an error and the chunk map is exactly what it was before the call.  If a
read error occurs mid-stream, LoadDataTable still returns an error, but
the records parsed so far in that call are not discarded: they have
already been inserted into the map, on top of the previous contents. -/
theorem claim1_amended (hashChunk : String → String) (m : ChunkMap) (e : String)
    (ls : List String) :
    loadDataTable hashChunk m (.openError e) =
      (m, some ("failed to open file: " ++ e)) ∧
    loadDataTable hashChunk m (.lines ls (some e)) =
      (loadMapFrom m (chunkList hashChunk ls), some ("error reading file: " ++ e)) :=
  ⟨rfl, rfl⟩

/-- Claim C4.  If the reload inside DetectChanges fails because the source
cannot be read, DetectChanges returns an error and the store's current
snapshot is returned unchanged: the failed cycle never corrupts the
persisted snapshot, because the partial parse lands only in the fresh
temporary table. -/
theorem claim4_failed_reload_retains_snapshot (hashChunk : String → String)
    (rt : ChunkMap) (src : ScanSource) (e : String)
    (hfail : (loadDataTable hashChunk [] src).2 = some e) :
    detectChanges hashChunk rt src =
      (rt, .error ("failed to reload routing table: " ++ e)) := by
  rw [detectChanges]
  rcases hload : loadDataTable hashChunk [] src with ⟨m', err⟩
  have herr : err = some e := by rw [hload] at hfail; exact hfail
  rw [herr]

/-- Witness for claim C4 at a concrete failing source. -/
theorem claim4_witness :
    detectChanges sampleHash
        [("A", { startLine := 1, endLine := 1, hash := "Destination: A",
                 data := "Destination: A", destination := "A" })]
        (.openError "no such file") =
      ([("A", { startLine := 1, endLine := 1, hash := "Destination: A",
                data := "Destination: A", destination := "A" })],
        .error ("failed to reload routing table: " ++ "failed to open file: no such file")) :=
  claim4_failed_reload_retains_snapshot sampleHash _ _ _ (by decide)

/-- Claim C7.  After every successful DetectChanges call the store's chunk
map is exactly the freshly parsed snapshot of the source, whether or not
the changed-key list is empty. -/
theorem claim7_swap_to_fresh_snapshot (hashChunk : String → String)
    (rt out : ChunkMap) (src : ScanSource) (changed : List String)
    (hok : detectChanges hashChunk rt src = (out, .ok changed)) :
    out = (loadDataTable hashChunk [] src).1 := by
  cases src with
  | openError e => simp [detectChanges, loadDataTable] at hok
  | lines ls err =>
    cases err with
    | some e => simp [detectChanges, loadDataTable] at hok
    | none =>
      simp only [detectChanges, loadDataTable] at hok ⊢
      exact (Prod.mk.injEq .. ▸ hok).1.symm

/-- Witness for claim C7 at a concrete source. -/
theorem claim7_witness :
    [(("A" : String),
      ({ startLine := 1, endLine := 1, hash := "Destination: A",
         data := "Destination: A", destination := "A" } : Chunk))] =
      (loadDataTable sampleHash [] (.lines ["Destination: A"] none)).1 :=
  claim7_swap_to_fresh_snapshot sampleHash [] _ _ ["A"] rfl

/-- Claim C8.  Identity keys are unique within one snapshot, and the
snapshot maps every key to the last record of the parse sequence bearing
that key, matching single-pass construction order. -/
theorem claim8_keys_unique_last_wins (hashChunk : String → String)
    (input : List String) :
    ((parseMap hashChunk input).map Prod.fst).Nodup ∧
    ∀ k, lookupChunk (parseMap hashChunk input) k =
      lastChunkWith (chunkList hashChunk input) k := by
  constructor
  · exact nodup_loadMapFrom _ [] (by simp)
  · intro k
    rw [parseMap, lookupChunk_loadMapFrom]
    cases h : lastChunkWith (chunkList hashChunk input) k <;> simp [lookupChunk]

/-- Claim C9.  Diffing a snapshot against itself, or against any map with
identical content, yields the empty changed-key list. -/
theorem claim9_diff_self_empty (oldChunks newChunks : ChunkMap)
    (hnd : (oldChunks.map Prod.fst).Nodup)
    (hsame : ∀ k, lookupChunk oldChunks k = lookupChunk newChunks k) :
    diffChunks oldChunks newChunks = [] :=
  diffChunks_eq_nil oldChunks newChunks hnd hsame

/-- Witness for claim C9 at a concrete snapshot. -/
theorem claim9_witness :
    diffChunks
      [("A", { startLine := 1, endLine := 1, hash := "Destination: A",
               data := "Destination: A", destination := "A" })]
      [("A", { startLine := 1, endLine := 1, hash := "Destination: A",
               data := "Destination: A", destination := "A" })] = [] :=
  claim9_diff_self_empty _ _ (by decide) (fun _ => rfl)

/-- Claim C10.  LoadDataTable merges the parsed records into the existing
chunk map and never clears it: any key the current parse does not produce
keeps exactly the entry it had before the call, so a direct re-load can
retain records that no longer exist in the file. -/
theorem claim10_stale_entries_survive_reload (hashChunk : String → String)
    (m : ChunkMap) (ls : List String) (readErr : Option String) (k : String)
    (hk : k ∉ (chunkList hashChunk ls).map Chunk.destination) :
    lookupChunk (loadDataTable hashChunk m (.lines ls readErr)).1 k = lookupChunk m k := by
  have h₁ : (loadDataTable hashChunk m (.lines ls readErr)).1 =
      loadMapFrom m (chunkList hashChunk ls) := by
    cases readErr <;> rfl
  rw [h₁, lookupChunk_loadMapFrom, lastChunkWith_eq_none.mpr hk]

/-- Witness for claim C10: a stale record keyed "A" survives a re-load of
a file that now only contains record "B". -/
theorem claim10_witness :
    lookupChunk
        (loadDataTable sampleHash
          [("A", { startLine := 1, endLine := 1, hash := "Destination: A",
                   data := "Destination: A", destination := "A" })]
          (.lines ["Destination: B"] none)).1 "A" =
      lookupChunk
        [("A", { startLine := 1, endLine := 1, hash := "Destination: A",
                 data := "Destination: A", destination := "A" })] "A" :=
  claim10_stale_entries_survive_reload sampleHash _ _ none "A" (by decide)

/-- Claim C2.  On a successful DetectChanges cycle the returned changed-key
list contains exactly the keys of the union of the old snapshot's keys and
the fresh snapshot's keys that are absent from one side or present in both
with differing content digests; each such key appears exactly once and no
other key appears. -/
theorem claim2_diff_exactly_changed_keys (hashChunk : String → String)
    (rt out : ChunkMap) (ls : List String) (changed : List String)
    (hnd : (rt.map Prod.fst).Nodup)
    (hok : detectChanges hashChunk rt (.lines ls none) = (out, .ok changed))
    (k : String) :
    changed.count k = if changedCond rt out k then 1 else 0 := by
  have hcomp : detectChanges hashChunk rt (.lines ls none) =
      (parseMap hashChunk ls, .ok (diffChunks rt (parseMap hashChunk ls))) := rfl
  rw [hcomp] at hok
  have hout : parseMap hashChunk ls = out := congrArg Prod.fst hok
  have hch : (Except.ok (diffChunks rt (parseMap hashChunk ls)) :
      Except String (List String)) = .ok changed := congrArg Prod.snd hok
  have hch' : diffChunks rt (parseMap hashChunk ls) = changed := by
    injection hch
  subst hout
  rw [← hch']
  exact diffChunks_count rt (parseMap hashChunk ls) hnd
    (nodup_loadMapFrom _ [] (by simp)) k

/-- Witness for claim C2 at a concrete reload of a one-record file into an
empty store. -/
theorem claim2_witness :
    (["A"] : List String).count "A" =
      if changedCond []
          [("A", { startLine := 1, endLine := 1, hash := "Destination: A",
                   data := "Destination: A", destination := "A" })] "A"
      then 1 else 0 :=
  claim2_diff_exactly_changed_keys sampleHash []
    [("A", { startLine := 1, endLine := 1, hash := "Destination: A",
             data := "Destination: A", destination := "A" })]
    ["Destination: A"] ["A"] (by decide) rfl "A"

/-- Claim C3.  A burst of relevant signals whose consecutive arrivals are
strictly less than the debounce interval apart produces exactly one
callback invocation, and it fires no earlier than one full interval after
the last signal of the burst (in the model, exactly at that time). -/
theorem claim3_debounce_single_fire (interval : Nat) (ts : List Nat)
    (hne : ts ≠ [])
    (hburst : List.Chain' (fun a b => a ≤ b ∧ b - a < interval) ts) :
    (debounceFires interval ts none).length = 1 ∧
    (∀ f ∈ debounceFires interval ts none, ts.getLast hne + interval ≤ f) ∧
    debounceFires interval ts none = [ts.getLast hne + interval] := by
  have key : debounceFires interval ts none = [ts.getLast hne + interval] := by
    cases ts with
    | nil => cases hne rfl
    | cons t₀ ts' =>
      rw [debounceFires]
      exact debounceFires_chain interval ts' t₀ hburst
  refine ⟨by rw [key]; rfl, ?_, key⟩
  rw [key]
  intro f hf
  simp only [List.mem_singleton] at hf
  omega

/-- Witness for claim C3: two signals at times 0 and 1 with interval 2
fire exactly one callback at time 3. -/
theorem claim3_witness : debounceFires 2 [0, 1] none = [3] :=
  ((claim3_debounce_single_fire 2 [0, 1] (by decide)
    (List.chain'_pair.mpr ⟨by omega, by omega⟩)).2.2).trans (by decide)

/-- Claim C5, counterexample.  The claim asserts that a synthetic key can
never collide with a real second-token key.  On the code this is false:
in the input whose first marker line carries the real key "unknown_2" and
whose second marker line (line 2) has fewer than two tokens, both records
receive the key "unknown_2". -/
theorem claim5_counterexample :
    (chunkList sampleHash ["Destination: unknown_2", "Destination:"]).map
        Chunk.destination = ["unknown_2", "unknown_2"] ∧
    (fields "Destination: unknown_2").length = 2 ∧
    (fields "Destination:").length = 1 := by
  decide

/-- Claim C5, amended.  A record whose marker line has fewer than two
whitespace-delimited tokens receives the synthetic key "unknown_" followed
by its 1-based starting line number; such a key never collides with the
key of a record whose identity key is not itself of the form
"unknown_" ++ s — but it can collide with a real key that literally has
that form. -/
theorem claim5_synthetic_keys (hashChunk : String → String) (input : List String)
    (hnl : ∀ l ∈ input, '\n' ∉ l.data) (c : Chunk)
    (hc : c ∈ chunkList hashChunk input)
    (hmal : (fields (markerLine c)).length < 2) :
    c.destination = "unknown_" ++ toString c.startLine ∧
    ∀ c' ∈ chunkList hashChunk input,
      (∀ s, c'.destination ≠ "unknown_" ++ s) → c.destination ≠ c'.destination := by
  obtain ⟨h1, h2, h3⟩ := groupSplit_spec input
  rw [chunkList_eq_chunksOfGroups hashChunk input] at hc
  obtain ⟨g, m, hg, hceq⟩ := mem_chunksOfGroups hc
  obtain ⟨hgne, hmk, htl⟩ := h2 g hg
  have hgsub : ∀ l ∈ g, l ∈ input := by
    intro l hl
    rw [← h3]
    exact List.mem_append_right _ (List.mem_flatten.mpr ⟨g, hg, hl⟩)
  have hdata : c.data = joinLines g := by rw [hceq]; rfl
  have hml : markerLine c = g.headD "" := by
    rw [markerLine, hdata, splitLines_joinLines g hgne (fun l hl => hnl l (hgsub l hl))]
  have hstart : c.startLine = m + 1 := by rw [hceq]; rfl
  have hdest : c.destination = destinationOf (g.headD "") (m + 1) := by rw [hceq]; rfl
  have hp1 : c.destination = "unknown_" ++ toString c.startLine := by
    rw [hdest, hstart, destinationOf_of_lt_two (by rw [← hml]; exact hmal) (m + 1)]
  refine ⟨hp1, ?_⟩
  intro c' hc' hnu heq
  exact hnu (toString c.startLine) (heq.symm.trans hp1)

/-- Witness for claim C5: a lone malformed marker line receives the
synthetic key derived from its starting line number. -/
theorem claim5_witness :
    ({ startLine := 1, endLine := 1, hash := "Destination:",
       data := "Destination:", destination := "unknown_1" } : Chunk).destination =
      "unknown_" ++ toString
        ({ startLine := 1, endLine := 1, hash := "Destination:",
           data := "Destination:", destination := "unknown_1" } : Chunk).startLine :=
  (claim5_synthetic_keys sampleHash ["Destination:"] (by decide) _ (by decide)
    (by decide)).1

/-- Claim C6, counterexample.  The claim asserts that for well-formed
marker lines, re-parsing the emitted record text yields identical content
digests.  On the code this is false once the scanner's carriage-return
stripping is accounted for: the scanner can yield the well-formed marker
line "Destination: A\r" (from a file containing two carriage returns
before the newline), whose record data ends in a carriage return; on
re-scan, bufio.ScanLines drops that trailing carriage return, so the
re-parsed record's data and digest differ from the original's. -/
theorem claim6_counterexample :
    (fields "Destination: A\r").length = 2 ∧
    (chunkList sampleHash (scanLines (joinLines
        ((chunkList sampleHash ["Destination: A\r"]).map Chunk.data)))).map
        Chunk.hash ≠
      (chunkList sampleHash ["Destination: A\r"]).map Chunk.hash := by
  decide

/-- Claim C6, amended.  For an input whose marker lines are well-formed
(at least two whitespace-delimited tokens), whose lines do not end in a
carriage return (otherwise the scanner's CR-stripping alters a record's
text on re-scan), and whose last line is nonempty (otherwise the emitted
text, which carries no trailing newline, loses that line on re-scan),
re-parsing the text obtained by joining the parsed records' raw contents
in order yields records with identical identity keys, identical content
digests, and identical relative record extents (end line minus start
line) as the original parse. -/
theorem claim6_reparse_roundtrip (hashChunk : String → String) (input : List String)
    (hnl : ∀ l ∈ input, '\n' ∉ l.data)
    (hcr : ∀ l ∈ input, l.data.getLast? ≠ some '\r')
    (hlast : input.getLast? ≠ some "")
    (hwf : ∀ l ∈ input, isMarker l = true → 2 ≤ (fields l).length) :
    (chunkList hashChunk (scanLines (joinLines
        ((chunkList hashChunk input).map Chunk.data)))).map Chunk.destination =
      (chunkList hashChunk input).map Chunk.destination ∧
    (chunkList hashChunk (scanLines (joinLines
        ((chunkList hashChunk input).map Chunk.data)))).map Chunk.hash =
      (chunkList hashChunk input).map Chunk.hash ∧
    (chunkList hashChunk (scanLines (joinLines
        ((chunkList hashChunk input).map Chunk.data)))).map
        (fun c => c.endLine - c.startLine) =
      (chunkList hashChunk input).map (fun c => c.endLine - c.startLine) := by
  obtain ⟨h1, h2, h3⟩ := groupSplit_spec input
  rw [chunkList_eq_chunksOfGroups hashChunk input]
  cases hgs : (groupSplit input).2 with
  | nil => exact ⟨rfl, rfl, rfl⟩
  | cons g gs' =>
    rw [hgs] at h2 h3
    have hall : ∀ g' ∈ g :: gs', GoodGroup g' := h2
    have hne' : ∀ g' ∈ g :: gs', g' ≠ [] := fun g' h' => (hall g' h').1
    have hsub : ∀ l ∈ (g :: gs').flatten, l ∈ input := by
      intro l hl
      rw [← h3]
      exact List.mem_append_right _ hl
    have hnlf : ∀ l ∈ (g :: gs').flatten, '\n' ∉ l.data := fun l hl => hnl l (hsub l hl)
    have hcrf : ∀ l ∈ (g :: gs').flatten, l.data.getLast? ≠ some '\r' :=
      fun l hl => hcr l (hsub l hl)
    have hflne : (g :: gs').flatten ≠ [] := by
      have hgn : g ≠ [] := hne' g (by simp)
      cases g with
      | nil => cases hgn rfl
      | cons x xs => simp
    have hlastf : ((g :: gs').flatten).getLast? ≠ some "" := by
      intro hbad
      apply hlast
      rw [← h3, List.getLast?_append, hbad]
      rfl
    have hwfheads : ∀ g' ∈ g :: gs', 2 ≤ (fields (g'.headD "")).length := by
      intro g' h'
      obtain ⟨hgne, hmk, _⟩ := hall g' h'
      refine hwf (g'.headD "") ?_ hmk
      refine hsub _ (List.mem_flatten.mpr ⟨g', h', ?_⟩)
      cases g' with
      | nil => cases hgne rfl
      | cons x xs => simp
    have hmapdata :
        (chunksOfGroups hashChunk (g :: gs') (groupSplit input).1.length).map Chunk.data =
          (g :: gs').map joinLines :=
      chunksOfGroups_map_data hashChunk (g :: gs') _
    have hjoin : joinLines ((g :: gs').map joinLines) = joinLines (g :: gs').flatten :=
      joinLines_map_joinLines _ hne'
    have hsplit : scanLines (joinLines (g :: gs').flatten) = (g :: gs').flatten :=
      scanLines_joinLines _ hflne hnlf hcrf hlastf
    have hreparse :
        chunkList hashChunk (scanLines (joinLines
          ((chunksOfGroups hashChunk (g :: gs') (groupSplit input).1.length).map
            Chunk.data))) = chunksOfGroups hashChunk (g :: gs') 0 := by
      rw [hmapdata, hjoin, hsplit]
      exact scanChunks_flatten_none hashChunk _ 0 hall
    rw [hreparse]
    exact chunksOfGroups_maps hashChunk (g :: gs') hwfheads 0 ((groupSplit input).1.length)

/-- Witness for claim C6 at a concrete two-line record. -/
theorem claim6_witness :
    (chunkList sampleHash (scanLines (joinLines
        ((chunkList sampleHash ["Destination: A", "x"]).map Chunk.data)))).map
        Chunk.destination =
      (chunkList sampleHash ["Destination: A", "x"]).map Chunk.destination :=
  (claim6_reparse_roundtrip sampleHash ["Destination: A", "x"] (by decide)
    (by decide) (by decide) (by decide)).1
